import Mathlib

/-!
Shallow embedding of the halving-cycle analysis implemented in
`src/app/page.tsx` (`analyzeHalvingCycles` and `getFilteredData`),
together with proofs of the specified properties.

Prices are modelled as rationals; timestamps as integers (epoch
milliseconds).  JavaScript division can produce non-finite numbers
(`Infinity`, `-Infinity`, `NaN`), which matter for the degenerate
empty-pre-window case, so percentage values live in a small model
`JSNum` of extended JavaScript numbers; `jsDiv`, `jsGt`, `jsGe` follow
IEEE semantics on those values.  JavaScript truthiness is modelled
explicitly where the source relies on it (`!crashDate` on a nullable
string, `crashPrice ? _ : null` on a nullable number, `x || default`).
-/

structure PriceData where
  date : String
  price : ℚ
  timestamp : ℤ
deriving DecidableEq, Repr, Inhabited

structure HalvingEvent where
  date : String
  blockHeight : ℤ
  cycle : ℤ
deriving DecidableEq, Repr, Inhabited

/-- Extended JavaScript numbers: finite rationals plus the three
non-finite IEEE values that division can produce. -/
inductive JSNum where
  | fin : ℚ → JSNum
  | inf : JSNum
  | ninf : JSNum
  | nan : JSNum
deriving DecidableEq, Repr, Inhabited

namespace JSNum

def isFinite : JSNum → Bool
  | .fin _ => true
  | _ => false

/-- JavaScript `>` on possibly non-finite numbers (`NaN` compares false). -/
def jsGt : JSNum → JSNum → Bool
  | .nan, _ => false
  | _, .nan => false
  | .fin a, .fin b => decide (b < a)
  | .fin _, .inf => false
  | .fin _, .ninf => true
  | .inf, .inf => false
  | .inf, _ => true
  | .ninf, _ => false

/-- JavaScript `>=` on possibly non-finite numbers (`NaN` compares false). -/
def jsGe : JSNum → JSNum → Bool
  | .nan, _ => false
  | _, .nan => false
  | .fin a, .fin b => decide (b ≤ a)
  | .fin _, .inf => false
  | .fin _, .ninf => true
  | .inf, _ => true
  | .ninf, .ninf => true
  | .ninf, _ => false

end JSNum

/-- JavaScript division `a / b`: division by zero yields `Infinity`,
`-Infinity` or `NaN` according to the sign of the numerator. -/
def jsDiv (a b : ℚ) : JSNum :=
  if b = 0 then
    if 0 < a then .inf else if a < 0 then .ninf else .nan
  else .fin (a / b)

/-- Multiplication by the positive constant 100 (preserves the three
non-finite values, as in JavaScript). -/
def jsMul100 : JSNum → JSNum
  | .fin q => .fin (q * 100)
  | x => x

/-- The percentage-change formula `((endP - startP) / startP) * 100` the
source uses everywhere. -/
def pctChange (startP endP : ℚ) : JSNum :=
  jsMul100 (jsDiv (endP - startP) startP)

/-- The drawdown formula `((peakPrice - price) / peakPrice) * 100` of the
crash scan (line 137 of the source). -/
def drawdownJS (peakPrice price : ℚ) : JSNum :=
  jsMul100 (jsDiv (peakPrice - price) peakPrice)

/-- Rational-valued drawdown, used to state properties in the common case
where the peak price is nonzero. -/
def ddq (peakPrice price : ℚ) : ℚ :=
  (peakPrice - price) / peakPrice * 100

def msPerDay : ℤ := 24 * 60 * 60 * 1000

/-- JavaScript truthiness of a `string | null` value: `null` and the empty
string are falsy. -/
def strTruthy : Option String → Bool
  | none => false
  | some s => decide (s ≠ "")

structure PreHalvingData where
  startDate : String
  startPrice : ℚ
  halvingPrice : ℚ
  percentageGain : JSNum
  daysAnalyzed : ℕ
deriving DecidableEq, Repr, Inhabited

structure PostHalvingData where
  peakDate : String
  peakPrice : ℚ
  percentageGain : JSNum
  crashDate : Option String
  crashPrice : Option ℚ
  percentageFromPeak : Option JSNum
  daysToPeak : ℤ
deriving DecidableEq, Repr, Inhabited

structure CycleAnalysis where
  cycle : ℤ
  halvingDate : String
  preHalvingData : PreHalvingData
  postHalvingData : PostHalvingData
deriving DecidableEq, Repr, Inhabited

/-- The statically configured event list (lines 40–45 of the source). -/
def HALVING_EVENTS : List HalvingEvent :=
  [⟨"2012-11-28", 210000, 1⟩,
   ⟨"2016-07-09", 420000, 2⟩,
   ⟨"2020-05-11", 630000, 3⟩,
   ⟨"2024-04-20", 840000, 4⟩]

/-- Models `data.find(d => Math.abs(d.timestamp - halvingTimestamp) < 24*60*60*1000)`
(lines 88–90). -/
def findHalvingPrice (data : List PriceData) (halvingTimestamp : ℤ) : Option PriceData :=
  data.find? (fun d => decide (|d.timestamp - halvingTimestamp| < 24 * 60 * 60 * 1000))

/-- Pre-event window (lines 95–98): samples with
`halvingTimestamp - 365 days ≤ timestamp ≤ halvingTimestamp`. -/
def preWindow (data : List PriceData) (halvingTimestamp : ℤ) : List PriceData :=
  data.filter (fun d =>
    decide (halvingTimestamp - 365 * msPerDay ≤ d.timestamp ∧ d.timestamp ≤ halvingTimestamp))

/-- Models `HALVING_EVENTS[index + 1]?.date ? new Date(...).getTime() : Date.now()`
(lines 106–108); `parse` models `s => new Date(s).getTime()` and `now`
models `Date.now()`. -/
def nextEventTimestamp (parse : String → ℤ) (now : ℤ)
    (events : List HalvingEvent) (index : ℕ) : ℤ :=
  match events.get? (index + 1) with
  | some e => if e.date ≠ "" then parse e.date else now
  | none => now

/-- Models `Math.min(postHalvingEnd, nextHalvingTimestamp, Date.now())` (line 110). -/
def analysisEnd (parse : String → ℤ) (now : ℤ) (events : List HalvingEvent)
    (index : ℕ) (halvingTimestamp : ℤ) : ℤ :=
  min (min (halvingTimestamp + 550 * msPerDay)
      (nextEventTimestamp parse now events index)) now

/-- Post-event window (lines 112–114): samples with
`halvingTimestamp < timestamp ≤ analysisEnd`. -/
def postWindow (data : List PriceData) (halvingTimestamp endTime : ℤ) : List PriceData :=
  data.filter (fun d => decide (halvingTimestamp < d.timestamp ∧ d.timestamp ≤ endTime))

/-- Peak search (lines 116–126): fold over the post-event window with the
running `(peakPrice, peakDate, peakIndex)`, updating only on a strictly
greater price; `i` is the index of the head of the remaining list. -/
def peakScan : List PriceData → ℕ → ℚ × String × ℕ → ℚ × String × ℕ
  | [], _, acc => acc
  | d :: rest, i, acc =>
    if acc.1 < d.price then peakScan rest (i + 1) (d.price, d.date, i)
    else peakScan rest (i + 1) acc

/-- Crash scan (lines 132–145): iterate from the peak index to the end of
the post-event window carrying `(crashDate, crashPrice, maxDrawdown)`;
the crash is recorded the first time the drawdown both exceeds the running
maximum and reaches 30 while `crashDate` is still falsy. -/
def crashScan (peakPrice : ℚ) :
    List PriceData → Option String × Option ℚ × JSNum → Option String × Option ℚ × JSNum
  | [], acc => acc
  | d :: rest, (cd, cp, md) =>
    let drawdown := drawdownJS peakPrice d.price
    if drawdown.jsGt md then
      if drawdown.jsGe (.fin 30) && !(strTruthy cd) then
        crashScan peakPrice rest (some d.date, some d.price, drawdown)
      else
        crashScan peakPrice rest (cd, cp, drawdown)
    else
      crashScan peakPrice rest (cd, cp, md)

/-- Body of one iteration of `analyzeHalvingCycles` (lines 94–166) once a
halving-day sample `halvingPriceData` has been found. -/
def analyzeEventWith (parse : String → ℤ) (now : ℤ) (events : List HalvingEvent)
    (data : List PriceData) (index : ℕ) (halving : HalvingEvent)
    (halvingPriceData : PriceData) : CycleAnalysis :=
  let halvingTimestamp := parse halving.date
  let pre := preWindow data halvingTimestamp
  let startPrice := (pre.head?.map PriceData.price).getD 0
  let halvingPrice := halvingPriceData.price
  let endTime := analysisEnd parse now events index halvingTimestamp
  let post := postWindow data halvingTimestamp endTime
  let pk := peakScan post 0 (halvingPrice, halving.date, 0)
  let cr := crashScan pk.1 (post.drop pk.2.2) (none, none, JSNum.fin 0)
  { cycle := halving.cycle
    halvingDate := halving.date
    preHalvingData :=
      { startDate :=
          match pre.head? with
          | some d => if d.date ≠ "" then d.date else halving.date
          | none => halving.date
        startPrice := startPrice
        halvingPrice := halvingPrice
        percentageGain := pctChange startPrice halvingPrice
        daysAnalyzed := pre.length }
    postHalvingData :=
      { peakDate := pk.2.1
        peakPrice := pk.1
        percentageGain := pctChange halvingPrice pk.1
        crashDate := cr.1
        crashPrice := cr.2.1
        percentageFromPeak :=
          match cr.2.1 with
          | some cp => if cp ≠ 0 then some (pctChange pk.1 cp) else none
          | none => none
        daysToPeak := Int.fdiv (parse pk.2.1 - halvingTimestamp) msPerDay } }

/-- One iteration of the `HALVING_EVENTS.forEach` loop (lines 83–167):
`none` when no sample lies within one day of the event date. -/
def analyzeEvent (parse : String → ℤ) (now : ℤ) (events : List HalvingEvent)
    (data : List PriceData) (index : ℕ) (halving : HalvingEvent) : Option CycleAnalysis :=
  match findHalvingPrice data (parse halving.date) with
  | none => none
  | some hp => some (analyzeEventWith parse now events data index halving hp)

/-- The `forEach` loop with its `analyses.push`: `index` is the index of
the head of `pending` within `events`. -/
def runAnalyses (parse : String → ℤ) (now : ℤ) (events : List HalvingEvent)
    (data : List PriceData) : ℕ → List HalvingEvent → List CycleAnalysis
  | _, [] => []
  | index, h :: rest =>
    match analyzeEvent parse now events data index h with
    | none => runAnalyses parse now events data (index + 1) rest
    | some a => a :: runAnalyses parse now events data (index + 1) rest

/-- The function `analyzeHalvingCycles` (lines 80–170). -/
def analyzeHalvingCycles (parse : String → ℤ) (now : ℤ) (events : List HalvingEvent)
    (data : List PriceData) : List CycleAnalysis :=
  runAnalyses parse now events data 0 events

/-- The function `getFilteredData` (lines 172–183); `none` models the `'all'` selection. -/
def getFilteredData (parse : String → ℤ) (selectedCycle : Option ℤ)
    (events : List HalvingEvent) (priceData : List PriceData) : List PriceData :=
  match selectedCycle with
  | none => priceData
  | some c =>
    match events.find? (fun h => decide (h.cycle = c)) with
    | none => priceData
    | some halving =>
      let halvingTimestamp := parse halving.date
      priceData.filter (fun d =>
        decide (halvingTimestamp - 365 * msPerDay ≤ d.timestamp ∧
          d.timestamp ≤ halvingTimestamp + 550 * msPerDay))

/-! ### Concrete scenarios used as witnesses -/

/-- Timestamp interpretation for the synthetic scenario dates. -/
def parseS : String → ℤ := fun s =>
  if s = "P1" then 8640000000
  else if s = "P2" then 12960000000
  else if s = "P3" then 17280000000
  else if s = "HX" then 34560000000
  else 0

def nowS : ℤ := 51840000000

def eventsS : List HalvingEvent := [⟨"H", 210000, 1⟩]

def dataS : List PriceData :=
  [⟨"P0", 100, 0⟩, ⟨"P1", 1000, 8640000000⟩,
   ⟨"P2", 650, 12960000000⟩, ⟨"P3", 400, 17280000000⟩]

def recS : CycleAnalysis :=
  (analyzeEvent parseS nowS eventsS dataS 0 ⟨"H", 210000, 1⟩).getD default


/-! ### Helper lemmas about the scans -/

theorem peakScan_fst_le (l : List PriceData) (i : ℕ) (p : ℚ) (s : String) (k : ℕ) :
    p ≤ (peakScan l i (p, s, k)).1 := by
  induction l generalizing i p s k with
  | nil => simp [peakScan]
  | cons d rest ih =>
    simp only [peakScan]
    by_cases h : p < d.price
    · simpa [h] using le_of_lt (lt_of_lt_of_le h (ih (i + 1) d.price d.date i))
    · simpa [h] using ih (i + 1) p s k

/-- Characterization of the peak search: either no sample beats the seed
and the accumulator is returned unchanged, or the result is the earliest
sample attaining the maximum, every earlier sample being strictly below
it. -/
theorem peakScan_char (l : List PriceData) (i : ℕ) (p : ℚ) (s : String) (k : ℕ) :
    (peakScan l i (p, s, k) = (p, s, k) ∧ ∀ x ∈ l, x.price ≤ p) ∨
    (∃ l₁ x l₂, l = l₁ ++ x :: l₂ ∧
      peakScan l i (p, s, k) = (x.price, x.date, i + l₁.length) ∧
      p < x.price ∧ (∀ y ∈ l₁, y.price < x.price) ∧ ∀ y ∈ l, y.price ≤ x.price) := by
  induction l generalizing i p s k with
  | nil => exact Or.inl ⟨rfl, by simp⟩
  | cons d rest ih =>
    by_cases h : p < d.price
    · right
      have hstep : peakScan (d :: rest) i (p, s, k)
          = peakScan rest (i + 1) (d.price, d.date, i) := by
        simp [peakScan, h]
      rcases ih (i + 1) d.price d.date i with ⟨heq, hle⟩ | ⟨l₁, x, l₂, hsplit, heq, hlt, hl₁, hall⟩
      · refine ⟨[], d, rest, rfl, ?_, h, by simp, ?_⟩
        · rw [hstep, heq]; simp
        · intro y hy
          rcases List.mem_cons.mp hy with hy | hy
          · rw [hy]
          · exact hle y hy
      · refine ⟨d :: l₁, x, l₂, by rw [hsplit, List.cons_append], ?_, lt_trans h hlt, ?_, ?_⟩
        · rw [hstep, heq]
          have : i + 1 + l₁.length = i + (d :: l₁).length := by
            simp [List.length_cons]; omega
          rw [this]
        · intro y hy
          rcases List.mem_cons.mp hy with hy | hy
          · rw [hy]; exact hlt
          · exact hl₁ y hy
        · intro y hy
          rcases List.mem_cons.mp hy with hy | hy
          · rw [hy]; exact le_of_lt hlt
          · exact hall y (hsplit ▸ hy)
    · have hstep : peakScan (d :: rest) i (p, s, k) = peakScan rest (i + 1) (p, s, k) := by
        simp [peakScan, h]
      rcases ih (i + 1) p s k with ⟨heq, hle⟩ | ⟨l₁, x, l₂, hsplit, heq, hlt, hl₁, hall⟩
      · left
        refine ⟨by rw [hstep, heq], ?_⟩
        intro y hy
        rcases List.mem_cons.mp hy with hy | hy
        · rw [hy]; exact le_of_not_lt h
        · exact hle y hy
      · right
        refine ⟨d :: l₁, x, l₂, by rw [hsplit, List.cons_append], ?_, hlt, ?_, ?_⟩
        · rw [hstep, heq]
          have : i + 1 + l₁.length = i + (d :: l₁).length := by
            simp [List.length_cons]; omega
          rw [this]
        · intro y hy
          rcases List.mem_cons.mp hy with hy | hy
          · rw [hy]; exact lt_of_le_of_lt (le_of_not_lt h) hlt
          · exact hl₁ y hy
        · intro y hy
          rcases List.mem_cons.mp hy with hy | hy
          · rw [hy]; exact le_of_lt (lt_of_le_of_lt (le_of_not_lt h) hlt)
          · exact hall y (hsplit ▸ hy)

theorem drawdownJS_of_ne (p x : ℚ) (hp : p ≠ 0) : drawdownJS p x = .fin (ddq p x) := by
  simp [drawdownJS, jsDiv, hp, jsMul100, ddq]

theorem jsGt_fin_fin (a b : ℚ) : (JSNum.fin a).jsGt (JSNum.fin b) = decide (b < a) := rfl

theorem jsGe_fin_fin (a b : ℚ) : (JSNum.fin a).jsGe (JSNum.fin b) = decide (b ≤ a) := rfl

/-- Once a truthy crash date is recorded, the crash scan never changes the
recorded date/price pair. -/
theorem crashScan_keeps (p : ℚ) (l : List PriceData) (cd : Option String)
    (cp : Option ℚ) (md : JSNum) (h : strTruthy cd = true) :
    (crashScan p l (cd, cp, md)).1 = cd ∧ (crashScan p l (cd, cp, md)).2.1 = cp := by
  induction l generalizing md with
  | nil => exact ⟨rfl, rfl⟩
  | cons d rest ih =>
    simp only [crashScan]
    by_cases hgt : (drawdownJS p d.price).jsGt md = true
    · simp only [hgt, if_true, h, Bool.not_true, Bool.and_false, Bool.false_eq_true,
        if_false]
      exact ih _
    · simp only [Bool.not_eq_true] at hgt
      simp only [hgt, Bool.false_eq_true, if_false]
      exact ih _

/-- The crash scan either leaves the recorded pair unchanged or records
the date and price of one of the scanned samples. -/
theorem crashScan_pair (p : ℚ) (l : List PriceData) :
    ∀ cd cp md,
      ((crashScan p l (cd, cp, md)).1 = cd ∧ (crashScan p l (cd, cp, md)).2.1 = cp) ∨
      ∃ x ∈ l, (crashScan p l (cd, cp, md)).1 = some x.date ∧
        (crashScan p l (cd, cp, md)).2.1 = some x.price := by
  induction l with
  | nil => intro cd cp md; exact Or.inl ⟨rfl, rfl⟩
  | cons d rest ih =>
    intro cd cp md
    simp only [crashScan]
    by_cases hgt : (drawdownJS p d.price).jsGt md = true
    · by_cases hset : ((drawdownJS p d.price).jsGe (.fin 30) && !(strTruthy cd)) = true
      · simp only [hgt, if_true, hset]
        rcases ih (some d.date) (some d.price) (drawdownJS p d.price) with ⟨h1, h2⟩ | ⟨x, hx, h1, h2⟩
        · exact Or.inr ⟨d, List.mem_cons_self d rest, h1, h2⟩
        · exact Or.inr ⟨x, List.mem_cons_of_mem d hx, h1, h2⟩
      · simp only [Bool.not_eq_true] at hset
        simp only [hgt, if_true, hset, Bool.false_eq_true, if_false]
        rcases ih cd cp (drawdownJS p d.price) with ⟨h1, h2⟩ | ⟨x, hx, h1, h2⟩
        · exact Or.inl ⟨h1, h2⟩
        · exact Or.inr ⟨x, List.mem_cons_of_mem d hx, h1, h2⟩
    · simp only [Bool.not_eq_true] at hgt
      simp only [hgt, Bool.false_eq_true, if_false]
      rcases ih cd cp md with ⟨h1, h2⟩ | ⟨x, hx, h1, h2⟩
      · exact Or.inl ⟨h1, h2⟩
      · exact Or.inr ⟨x, List.mem_cons_of_mem d hx, h1, h2⟩

/-- Characterization of the crash scan, started (as in the source) with no
recorded crash and running maximum drawdown 0, for a nonzero peak price
and non-empty sample dates: either no scanned sample reaches a 30%
drawdown and nothing is recorded, or the recorded crash is exactly the
earliest scanned sample whose drawdown reaches 30%. -/
theorem crashScan_char (p : ℚ) (hp : p ≠ 0) (l : List PriceData)
    (hdates : ∀ x ∈ l, x.date ≠ "") :
    ∀ m : ℚ, m < 30 →
    ((crashScan p l (none, none, .fin m)).1 = none ∧
      (crashScan p l (none, none, .fin m)).2.1 = none ∧
      ∀ x ∈ l, ddq p x.price < 30) ∨
    (∃ l₁ x l₂, l = l₁ ++ x :: l₂ ∧
      (crashScan p l (none, none, .fin m)).1 = some x.date ∧
      (crashScan p l (none, none, .fin m)).2.1 = some x.price ∧
      30 ≤ ddq p x.price ∧ ∀ y ∈ l₁, ddq p y.price < 30) := by
  induction l with
  | nil => intro m _; exact Or.inl ⟨rfl, rfl, by simp⟩
  | cons d rest ih =>
    intro m hm
    have hdd : drawdownJS p d.price = .fin (ddq p d.price) := drawdownJS_of_ne p d.price hp
    by_cases h30 : 30 ≤ ddq p d.price
    · right
      have hgt : (drawdownJS p d.price).jsGt (.fin m) = true := by
        rw [hdd, jsGt_fin_fin]
        exact decide_eq_true (lt_of_lt_of_le hm h30)
      have hset : ((drawdownJS p d.price).jsGe (.fin 30) && !(strTruthy (none : Option String))) = true := by
        rw [hdd, jsGe_fin_fin]
        simp [strTruthy, h30]
      have hstep : crashScan p (d :: rest) (none, none, .fin m)
          = crashScan p rest (some d.date, some d.price, drawdownJS p d.price) := by
        simp only [crashScan, hgt, if_true, hset]
      have htr : strTruthy (some d.date) = true := by
        simp [strTruthy, hdates d (List.mem_cons_self d rest)]
      obtain ⟨h1, h2⟩ := crashScan_keeps p rest (some d.date) (some d.price)
        (drawdownJS p d.price) htr
      exact ⟨[], d, rest, rfl, by rw [hstep, h1], by rw [hstep, h2], h30, by simp⟩
    · push_neg at h30
      have hdates' : ∀ x ∈ rest, x.date ≠ "" :=
        fun x hx => hdates x (List.mem_cons_of_mem d hx)
      by_cases hgt : (drawdownJS p d.price).jsGt (.fin m) = true
      · have hset : ((drawdownJS p d.price).jsGe (.fin 30) && !(strTruthy (none : Option String))) = false := by
          rw [hdd, jsGe_fin_fin]
          simp [not_le.mpr h30]
        have hstep : crashScan p (d :: rest) (none, none, .fin m)
            = crashScan p rest (none, none, drawdownJS p d.price) := by
          simp only [crashScan, hgt, if_true, hset, Bool.false_eq_true, if_false]
        rw [hdd] at hstep
        rcases (ih hdates') (ddq p d.price) h30 with ⟨h1, h2, h3⟩ | ⟨l₁, x, l₂, hsplit, h1, h2, hx30, hl₁⟩
        · refine Or.inl ⟨by rw [hstep, h1], by rw [hstep, h2], ?_⟩
          intro y hy
          rcases List.mem_cons.mp hy with hy | hy
          · rw [hy]; exact h30
          · exact h3 y hy
        · refine Or.inr ⟨d :: l₁, x, l₂, by rw [hsplit, List.cons_append],
            by rw [hstep, h1], by rw [hstep, h2], hx30, ?_⟩
          intro y hy
          rcases List.mem_cons.mp hy with hy | hy
          · rw [hy]; exact h30
          · exact hl₁ y hy
      · simp only [Bool.not_eq_true] at hgt
        have hstep : crashScan p (d :: rest) (none, none, .fin m)
            = crashScan p rest (none, none, .fin m) := by
          simp only [crashScan, hgt, Bool.false_eq_true, if_false]
        rcases (ih hdates') m hm with ⟨h1, h2, h3⟩ | ⟨l₁, x, l₂, hsplit, h1, h2, hx30, hl₁⟩
        · refine Or.inl ⟨by rw [hstep, h1], by rw [hstep, h2], ?_⟩
          intro y hy
          rcases List.mem_cons.mp hy with hy | hy
          · rw [hy]; exact h30
          · exact h3 y hy
        · refine Or.inr ⟨d :: l₁, x, l₂, by rw [hsplit, List.cons_append],
            by rw [hstep, h1], by rw [hstep, h2], hx30, ?_⟩
          intro y hy
          rcases List.mem_cons.mp hy with hy | hy
          · rw [hy]; exact h30
          · exact hl₁ y hy

/-! ### Unfolding and auxiliary facts about the per-event analysis -/

theorem analyzeEvent_eq_some {parse : String → ℤ} {now : ℤ} {events : List HalvingEvent}
    {data : List PriceData} {index : ℕ} {halving : HalvingEvent} {ca : CycleAnalysis}
    (h : analyzeEvent parse now events data index halving = some ca) :
    ∃ hp, findHalvingPrice data (parse halving.date) = some hp ∧
      ca = analyzeEventWith parse now events data index halving hp := by
  unfold analyzeEvent at h
  cases hfind : findHalvingPrice data (parse halving.date) with
  | none => rw [hfind] at h; exact absurd h (by simp)
  | some hp =>
    rw [hfind] at h
    exact ⟨hp, rfl, (Option.some.inj h).symm⟩

theorem findHalvingPrice_mem {data : List PriceData} {t : ℤ} {hp : PriceData}
    (h : findHalvingPrice data t = some hp) : hp ∈ data :=
  List.mem_of_find?_eq_some h

theorem pctChange_of_ne (s e : ℚ) (hs : s ≠ 0) :
    pctChange s e = .fin ((e - s) / s * 100) := by
  simp [pctChange, jsDiv, hs, jsMul100]

theorem jsDiv_zero_not_finite (a : ℚ) : (jsMul100 (jsDiv a 0)).isFinite = false := by
  unfold jsDiv
  rcases lt_trichotomy 0 a with h | h | h
  · simp [h, jsMul100, JSNum.isFinite]
  · simp [← h, jsMul100, JSNum.isFinite]
  · simp [h, not_lt_of_lt h, jsMul100, JSNum.isFinite]

/-! ### C10 -/

/-- C10: in every produced record, `daysAnalyzed` is the number of price
samples in the pre-event window (a sample count, not a calendar-day
span), and when the pre-event window is empty `startDate` falls back to
the halving date itself. -/
theorem daysAnalyzed_is_sample_count (parse : String → ℤ) (now : ℤ)
    (events : List HalvingEvent) (data : List PriceData) (index : ℕ)
    (halving : HalvingEvent) (ca : CycleAnalysis)
    (h : analyzeEvent parse now events data index halving = some ca) :
    ca.preHalvingData.daysAnalyzed = (preWindow data (parse halving.date)).length ∧
    (preWindow data (parse halving.date) = [] →
      ca.preHalvingData.startDate = halving.date) := by
  obtain ⟨hp, hfind, hca⟩ := analyzeEvent_eq_some h
  subst hca
  constructor
  · rfl
  · intro hempty
    simp [analyzeEventWith, hempty]

def data7 : List PriceData := [⟨"R0", 100, 3600000⟩]

def rec7 : CycleAnalysis :=
  (analyzeEvent parseS nowS eventsS data7 0 ⟨"H", 210000, 1⟩).getD default

theorem daysAnalyzed_is_sample_count_witness :
    rec7.preHalvingData.daysAnalyzed = (preWindow data7 (parseS "H")).length ∧
    (preWindow data7 (parseS "H") = [] → rec7.preHalvingData.startDate = "H") :=
  daysAnalyzed_is_sample_count parseS nowS eventsS data7 0 ⟨"H", 210000, 1⟩ rec7
    (by with_unfolding_all rfl)

/-! ### C7 -/

/-- C7: when the pre-event window is empty but a halving-day sample
exists, the analysis still emits a record (it does not fail), with
`startPrice = 0` and a non-finite pre-halving percentage gain coming from
the division by zero. -/
theorem emptyPreWindow_degenerate (parse : String → ℤ) (now : ℤ)
    (events : List HalvingEvent) (data : List PriceData) (index : ℕ)
    (halving : HalvingEvent) (hp : PriceData)
    (hfind : findHalvingPrice data (parse halving.date) = some hp)
    (hempty : preWindow data (parse halving.date) = []) :
    ∃ ca, analyzeEvent parse now events data index halving = some ca ∧
      ca.preHalvingData.startPrice = 0 ∧
      ca.preHalvingData.percentageGain.isFinite = false := by
  refine ⟨analyzeEventWith parse now events data index halving hp, ?_, ?_, ?_⟩
  · unfold analyzeEvent
    rw [hfind]
  · simp [analyzeEventWith, hempty]
  · have hstart : ((preWindow data (parse halving.date)).head?.map PriceData.price).getD 0 = 0 := by
      rw [hempty]; rfl
    have : (analyzeEventWith parse now events data index halving hp).preHalvingData.percentageGain
        = pctChange 0 hp.price := by
      simp [analyzeEventWith, hempty]
    rw [this]
    unfold pctChange
    rw [sub_zero]
    exact jsDiv_zero_not_finite hp.price

theorem emptyPreWindow_degenerate_witness :
    ∃ ca, analyzeEvent parseS nowS eventsS data7 0 ⟨"H", 210000, 1⟩ = some ca ∧
      ca.preHalvingData.startPrice = 0 ∧
      ca.preHalvingData.percentageGain.isFinite = false :=
  emptyPreWindow_degenerate parseS nowS eventsS data7 0 ⟨"H", 210000, 1⟩
    ⟨"R0", 100, 3600000⟩ (by with_unfolding_all rfl) (by with_unfolding_all rfl)

/-! ### C6 -/

/-- C6: every percentage field of a produced record satisfies
`gain = (end - start) / start * 100` with its specified endpoints
(whenever the corresponding start value is nonzero, so that the division
is finite), and `daysToPeak` is the floor of the day difference between
the parsed peak date and the parsed halving date. -/
theorem gain_formulas (parse : String → ℤ) (now : ℤ) (events : List HalvingEvent)
    (data : List PriceData) (index : ℕ) (halving : HalvingEvent) (ca : CycleAnalysis)
    (h : analyzeEvent parse now events data index halving = some ca)
    (hs : ca.preHalvingData.startPrice ≠ 0)
    (hh : ca.preHalvingData.halvingPrice ≠ 0)
    (hpk : ca.postHalvingData.peakPrice ≠ 0) :
    ca.preHalvingData.percentageGain =
      .fin ((ca.preHalvingData.halvingPrice - ca.preHalvingData.startPrice) /
        ca.preHalvingData.startPrice * 100) ∧
    ca.postHalvingData.percentageGain =
      .fin ((ca.postHalvingData.peakPrice - ca.preHalvingData.halvingPrice) /
        ca.preHalvingData.halvingPrice * 100) ∧
    (∀ cp, ca.postHalvingData.crashPrice = some cp → cp ≠ 0 →
      ca.postHalvingData.percentageFromPeak =
        some (.fin ((cp - ca.postHalvingData.peakPrice) /
          ca.postHalvingData.peakPrice * 100))) ∧
    ca.postHalvingData.daysToPeak =
      Int.fdiv (parse ca.postHalvingData.peakDate - parse ca.halvingDate) msPerDay := by
  obtain ⟨hp, hfind, hca⟩ := analyzeEvent_eq_some h
  subst hca
  refine ⟨?_, ?_, ?_, ?_⟩
  · simp only [analyzeEventWith] at hs ⊢
    exact pctChange_of_ne _ _ hs
  · simp only [analyzeEventWith] at hh ⊢
    exact pctChange_of_ne _ _ hh
  · intro cp hcp hcp0
    simp only [analyzeEventWith] at hcp hpk ⊢
    rw [hcp]
    simp only [hcp0, ne_eq, not_false_iff, if_true]
    rw [pctChange_of_ne _ _ hpk]
  · rfl

theorem gain_formulas_witness :
    recS.preHalvingData.percentageGain =
      .fin ((recS.preHalvingData.halvingPrice - recS.preHalvingData.startPrice) /
        recS.preHalvingData.startPrice * 100) ∧
    recS.postHalvingData.percentageGain =
      .fin ((recS.postHalvingData.peakPrice - recS.preHalvingData.halvingPrice) /
        recS.preHalvingData.halvingPrice * 100) ∧
    (∀ cp, recS.postHalvingData.crashPrice = some cp → cp ≠ 0 →
      recS.postHalvingData.percentageFromPeak =
        some (.fin ((cp - recS.postHalvingData.peakPrice) /
          recS.postHalvingData.peakPrice * 100))) ∧
    recS.postHalvingData.daysToPeak =
      Int.fdiv (parseS recS.postHalvingData.peakDate - parseS recS.halvingDate) msPerDay := by
  have h1 : recS.preHalvingData.startPrice = (100 : ℚ) := by with_unfolding_all rfl
  have h2 : recS.preHalvingData.halvingPrice = (100 : ℚ) := by with_unfolding_all rfl
  have h3 : recS.postHalvingData.peakPrice = (1000 : ℚ) := by with_unfolding_all rfl
  exact gain_formulas parseS nowS eventsS dataS 0 ⟨"H", 210000, 1⟩ recS
    (by with_unfolding_all rfl) (by rw [h1]; norm_num) (by rw [h2]; norm_num)
    (by rw [h3]; norm_num)

/-! ### C3 -/

/-- C3: the pre-event window holds exactly the samples with
`T - 365 days ≤ timestamp ≤ T`, the post-event window exactly the samples
with `T < timestamp ≤ min (T + 550 days) (min nextEventTimestamp now)`,
and `nextEventTimestamp` is the following configured event's parsed date
when one exists (with a nonempty date string) and the current wall-clock
time otherwise. -/
theorem window_bounds (parse : String → ℤ) (now : ℤ) (events : List HalvingEvent)
    (data : List PriceData) (index : ℕ) (halving : HalvingEvent)
    (hnext : ∀ e, events.get? (index + 1) = some e → e.date ≠ "") :
    (∀ d, d ∈ preWindow data (parse halving.date) ↔
      d ∈ data ∧ parse halving.date - 365 * msPerDay ≤ d.timestamp ∧
        d.timestamp ≤ parse halving.date) ∧
    (∀ d, d ∈ postWindow data (parse halving.date)
        (analysisEnd parse now events index (parse halving.date)) ↔
      d ∈ data ∧ parse halving.date < d.timestamp ∧
        d.timestamp ≤ min (parse halving.date + 550 * msPerDay)
          (min (nextEventTimestamp parse now events index) now)) ∧
    (∀ e, events.get? (index + 1) = some e →
      nextEventTimestamp parse now events index = parse e.date) ∧
    (events.get? (index + 1) = none →
      nextEventTimestamp parse now events index = now) := by
  refine ⟨?_, ?_, ?_, ?_⟩
  · intro d
    simp [preWindow, List.mem_filter]
  · intro d
    simp [postWindow, List.mem_filter, analysisEnd, min_assoc, and_assoc]
  · intro e he
    unfold nextEventTimestamp
    rw [he]
    simp [hnext e he]
  · intro he
    unfold nextEventTimestamp
    rw [he]

theorem window_bounds_witness :
    (∀ d, d ∈ preWindow dataS (parseS "H") ↔
      d ∈ dataS ∧ parseS "H" - 365 * msPerDay ≤ d.timestamp ∧
        d.timestamp ≤ parseS "H") ∧
    (∀ d, d ∈ postWindow dataS (parseS "H")
        (analysisEnd parseS nowS eventsS 0 (parseS "H")) ↔
      d ∈ dataS ∧ parseS "H" < d.timestamp ∧
        d.timestamp ≤ min (parseS "H" + 550 * msPerDay)
          (min (nextEventTimestamp parseS nowS eventsS 0) nowS)) ∧
    (∀ e, eventsS.get? 1 = some e →
      nextEventTimestamp parseS nowS eventsS 0 = parseS e.date) ∧
    (eventsS.get? 1 = none → nextEventTimestamp parseS nowS eventsS 0 = nowS) :=
  window_bounds parseS nowS eventsS dataS 0 ⟨"H", 210000, 1⟩
    (by intro e he; simp [eventsS] at he)

/-! ### C4 -/

/-- C4: the peak search is seeded with the halving-day price and date, so
the peak price dominates the halving price and every sample price of the
post-event window; when no post-event price strictly exceeds the
halving-day price the peak is the halving day itself with a 0% gain; and
when some price does exceed it, the recorded peak is the earliest sample
attaining the maximum (every earlier sample is strictly below it). -/
theorem peak_properties (parse : String → ℤ) (now : ℤ) (events : List HalvingEvent)
    (data : List PriceData) (index : ℕ) (halving : HalvingEvent) (ca : CycleAnalysis)
    (h : analyzeEvent parse now events data index halving = some ca)
    (hpos : ∀ d ∈ data, 0 < d.price) :
    let post := postWindow data (parse halving.date)
      (analysisEnd parse now events index (parse halving.date))
    ca.preHalvingData.halvingPrice ≤ ca.postHalvingData.peakPrice ∧
    (∀ d ∈ post, d.price ≤ ca.postHalvingData.peakPrice) ∧
    ((∀ d ∈ post, d.price ≤ ca.preHalvingData.halvingPrice) →
      ca.postHalvingData.peakDate = halving.date ∧
      ca.postHalvingData.peakPrice = ca.preHalvingData.halvingPrice ∧
      ca.postHalvingData.percentageGain = .fin 0) ∧
    (ca.preHalvingData.halvingPrice < ca.postHalvingData.peakPrice →
      ∃ l₁ x l₂, post = l₁ ++ x :: l₂ ∧
        ca.postHalvingData.peakPrice = x.price ∧
        ca.postHalvingData.peakDate = x.date ∧
        ∀ y ∈ l₁, y.price < x.price) := by
  intro post
  obtain ⟨hp, hfind, hca⟩ := analyzeEvent_eq_some h
  have hhp : 0 < hp.price := hpos hp (findHalvingPrice_mem hfind)
  subst hca
  simp only [analyzeEventWith]
  rcases peakScan_char post 0 hp.price halving.date 0 with
    ⟨heq, hle⟩ | ⟨l₁, x, l₂, hsplit, heq, hlt, hl₁, hall⟩
  · rw [heq]
    refine ⟨le_refl _, hle, ?_, ?_⟩
    · intro _
      refine ⟨rfl, rfl, ?_⟩
      rw [pctChange_of_ne _ _ (ne_of_gt hhp)]
      rw [sub_self, zero_div, zero_mul]
    · intro hcontra
      exact absurd hcontra (lt_irrefl _)
  · rw [heq]
    refine ⟨le_of_lt hlt, hall, ?_, ?_⟩
    · intro hub
      have hx : x ∈ post := by
        rw [hsplit]
        exact List.mem_append_right l₁ (List.mem_cons_self x l₂)
      exact absurd (hub x hx) (not_le.mpr hlt)
    · intro _
      exact ⟨l₁, x, l₂, hsplit, rfl, rfl, hl₁⟩

theorem peak_properties_witness :
    let post := postWindow dataS (parseS "H")
      (analysisEnd parseS nowS eventsS 0 (parseS "H"))
    recS.preHalvingData.halvingPrice ≤ recS.postHalvingData.peakPrice ∧
    (∀ d ∈ post, d.price ≤ recS.postHalvingData.peakPrice) ∧
    ((∀ d ∈ post, d.price ≤ recS.preHalvingData.halvingPrice) →
      recS.postHalvingData.peakDate = "H" ∧
      recS.postHalvingData.peakPrice = recS.preHalvingData.halvingPrice ∧
      recS.postHalvingData.percentageGain = .fin 0) ∧
    (recS.preHalvingData.halvingPrice < recS.postHalvingData.peakPrice →
      ∃ l₁ x l₂, post = l₁ ++ x :: l₂ ∧
        recS.postHalvingData.peakPrice = x.price ∧
        recS.postHalvingData.peakDate = x.date ∧
        ∀ y ∈ l₁, y.price < x.price) := by
  have hpos : ∀ d ∈ dataS, 0 < d.price := by
    intro d hd
    fin_cases hd <;> norm_num
  exact peak_properties parseS nowS eventsS dataS 0 ⟨"H", 210000, 1⟩ recS
    (by with_unfolding_all rfl) hpos

/-! ### Lemmas about the runner -/

theorem runAnalyses_length_le (parse : String → ℤ) (now : ℤ) (events : List HalvingEvent)
    (data : List PriceData) : ∀ (k : ℕ) (l : List HalvingEvent),
    (runAnalyses parse now events data k l).length ≤ l.length := by
  intro k l
  induction l generalizing k with
  | nil => simp [runAnalyses]
  | cons h rest ih =>
    rcases hae : analyzeEvent parse now events data k h with _ | a
    · simp only [runAnalyses, hae]
      have := ih (k + 1)
      simp [List.length_cons]
      omega
    · simp only [runAnalyses, hae]
      have := ih (k + 1)
      simp [List.length_cons]
      omega

theorem runAnalyses_length_lt (parse : String → ℤ) (now : ℤ) (events : List HalvingEvent)
    (data : List PriceData) : ∀ (l : List HalvingEvent) (k j : ℕ) (e : HalvingEvent),
    l.get? j = some e → analyzeEvent parse now events data (k + j) e = none →
    (runAnalyses parse now events data k l).length < l.length := by
  intro l
  induction l with
  | nil => intro k j e hj _; simp at hj
  | cons h rest ih =>
    intro k j e hj hnone
    cases j with
    | zero =>
      have he : h = e := by simpa using hj
      have h0 : analyzeEvent parse now events data k h = none := by
        rw [he]
        rw [Nat.add_zero] at hnone
        exact hnone
      simp only [runAnalyses, h0]
      have := runAnalyses_length_le parse now events data (k + 1) rest
      simp [List.length_cons]
      omega
    | succ j =>
      have hj' : rest.get? j = some e := by simpa using hj
      have hnone' : analyzeEvent parse now events data (k + 1 + j) e = none := by
        have harith : k + 1 + j = k + (j + 1) := by omega
        rw [harith]
        exact hnone
      have hrec := ih (k + 1) j e hj' hnone'
      rcases hae : analyzeEvent parse now events data k h with _ | a
      · simp only [runAnalyses, hae]
        simp [List.length_cons]
        omega
      · simp only [runAnalyses, hae]
        simp [List.length_cons]
        omega

theorem runAnalyses_mem (parse : String → ℤ) (now : ℤ) (events : List HalvingEvent)
    (data : List PriceData) : ∀ (l : List HalvingEvent) (k j : ℕ) (e : HalvingEvent)
    (ca : CycleAnalysis),
    l.get? j = some e → analyzeEvent parse now events data (k + j) e = some ca →
    ca ∈ runAnalyses parse now events data k l := by
  intro l
  induction l with
  | nil => intro k j e ca hj _; simp at hj
  | cons h rest ih =>
    intro k j e ca hj hsome
    cases j with
    | zero =>
      have he : h = e := by simpa using hj
      have h0 : analyzeEvent parse now events data k h = some ca := by
        rw [he]
        rw [Nat.add_zero] at hsome
        exact hsome
      simp only [runAnalyses, h0]
      exact List.mem_cons_self _ _
    | succ j =>
      have hj' : rest.get? j = some e := by simpa using hj
      have hsome' : analyzeEvent parse now events data (k + 1 + j) e = some ca := by
        have harith : k + 1 + j = k + (j + 1) := by omega
        rw [harith]
        exact hsome
      have hrec := ih (k + 1) j e ca hj' hsome'
      rcases hae : analyzeEvent parse now events data k h with _ | a
      · simp only [runAnalyses, hae]
        exact hrec
      · simp only [runAnalyses, hae]
        exact List.mem_cons_of_mem a hrec

theorem runAnalyses_mem_inv (parse : String → ℤ) (now : ℤ) (events : List HalvingEvent)
    (data : List PriceData) : ∀ (l : List HalvingEvent) (k : ℕ) (ca : CycleAnalysis),
    ca ∈ runAnalyses parse now events data k l →
    ∃ j e, l.get? j = some e ∧ analyzeEvent parse now events data (k + j) e = some ca := by
  intro l
  induction l with
  | nil => intro k ca hca; simp [runAnalyses] at hca
  | cons h rest ih =>
    intro k ca hca
    rcases hae : analyzeEvent parse now events data k h with _ | a
    · simp only [runAnalyses, hae] at hca
      obtain ⟨j, e, hj, hsome⟩ := ih (k + 1) ca hca
      refine ⟨j + 1, e, by simpa using hj, ?_⟩
      have harith : k + (j + 1) = k + 1 + j := by omega
      rw [harith]
      exact hsome
    · simp only [runAnalyses, hae, List.mem_cons] at hca
      rcases hca with hca | hca
      · refine ⟨0, h, by simp, ?_⟩
        rw [Nat.add_zero, hae, hca]
      · obtain ⟨j, e, hj, hsome⟩ := ih (k + 1) ca hca
        refine ⟨j + 1, e, by simpa using hj, ?_⟩
        have harith : k + (j + 1) = k + 1 + j := by omega
        rw [harith]
        exact hsome

/-! ### C5 -/

/-- C5: an event with no price sample within one day of its date yields
no record at all (the iteration returns early), the analysis still
succeeds, every other event that does analyze to a record contributes it
to the output, and the output is strictly shorter than the configured
event list. -/
theorem missing_event_skipped (parse : String → ℤ) (now : ℤ) (events : List HalvingEvent)
    (data : List PriceData) (index : ℕ) (halving : HalvingEvent)
    (hi : events.get? index = some halving)
    (hnone : findHalvingPrice data (parse halving.date) = none) :
    analyzeEvent parse now events data index halving = none ∧
    (analyzeHalvingCycles parse now events data).length < events.length ∧
    (∀ j e ca, events.get? j = some e →
      analyzeEvent parse now events data j e = some ca →
      ca ∈ analyzeHalvingCycles parse now events data) := by
  have h1 : analyzeEvent parse now events data index halving = none := by
    unfold analyzeEvent
    rw [hnone]
  refine ⟨h1, ?_, ?_⟩
  · unfold analyzeHalvingCycles
    refine runAnalyses_length_lt parse now events data events 0 index halving hi ?_
    rw [Nat.zero_add]
    exact h1
  · intro j e ca hj hsome
    unfold analyzeHalvingCycles
    refine runAnalyses_mem parse now events data events 0 j e ca hj ?_
    rw [Nat.zero_add]
    exact hsome

def eventsS5 : List HalvingEvent := [⟨"H", 210000, 1⟩, ⟨"HX", 420000, 2⟩]

theorem missing_event_skipped_witness :
    analyzeEvent parseS nowS eventsS5 dataS 1 ⟨"HX", 420000, 2⟩ = none ∧
    (analyzeHalvingCycles parseS nowS eventsS5 dataS).length < eventsS5.length ∧
    (∀ j e ca, eventsS5.get? j = some e →
      analyzeEvent parseS nowS eventsS5 dataS j e = some ca →
      ca ∈ analyzeHalvingCycles parseS nowS eventsS5 dataS) :=
  missing_event_skipped parseS nowS eventsS5 dataS 1 ⟨"HX", 420000, 2⟩
    (by with_unfolding_all rfl) (by with_unfolding_all rfl)

/-! ### C9 -/

theorem analyzeEventWith_crash_consistent (parse : String → ℤ) (now : ℤ)
    (events : List HalvingEvent) (data : List PriceData) (index : ℕ)
    (halving : HalvingEvent) (hp : PriceData)
    (hpos : ∀ d ∈ data, 0 < d.price) :
    (let ca := analyzeEventWith parse now events data index halving hp
     (ca.postHalvingData.crashDate = none ∧ ca.postHalvingData.crashPrice = none ∧
       ca.postHalvingData.percentageFromPeak = none) ∨
     ((∃ s, ca.postHalvingData.crashDate = some s) ∧
       (∃ q, ca.postHalvingData.crashPrice = some q) ∧
       (∃ v, ca.postHalvingData.percentageFromPeak = some v))) := by
  intro ca
  simp only [ca, analyzeEventWith]
  set post := postWindow data (parse halving.date)
    (analysisEnd parse now events index (parse halving.date)) with hpost
  set pk := peakScan post 0 (hp.price, halving.date, 0) with hpk
  set tail := post.drop pk.2.2 with htail
  rcases crashScan_pair pk.1 tail none none (.fin 0) with ⟨h1, h2⟩ | ⟨x, hx, h1, h2⟩
  · left
    refine ⟨h1, h2, ?_⟩
    rw [h2]
  · right
    have hxdata : x ∈ data := by
      have hxpost : x ∈ post := List.mem_of_mem_drop (htail ▸ hx)
      exact List.mem_of_mem_filter hxpost
    have hxpos : x.price ≠ 0 := ne_of_gt (hpos x hxdata)
    refine ⟨⟨x.date, h1⟩, ⟨x.price, h2⟩, ⟨pctChange pk.1 x.price, ?_⟩⟩
    rw [h2]
    simp [hxpos]

/-- C9: for positive-price input series, the three crash fields of every
produced record are all null or all non-null (the source derives
`percentageFromPeak` from the truthiness of `crashPrice`, which under the
positive-price precondition coincides with non-null). -/
theorem crash_fields_consistent (parse : String → ℤ) (now : ℤ)
    (events : List HalvingEvent) (data : List PriceData)
    (hpos : ∀ d ∈ data, 0 < d.price) (ca : CycleAnalysis)
    (hca : ca ∈ analyzeHalvingCycles parse now events data) :
    (ca.postHalvingData.crashDate = none ∧ ca.postHalvingData.crashPrice = none ∧
      ca.postHalvingData.percentageFromPeak = none) ∨
    ((∃ s, ca.postHalvingData.crashDate = some s) ∧
      (∃ q, ca.postHalvingData.crashPrice = some q) ∧
      (∃ v, ca.postHalvingData.percentageFromPeak = some v)) := by
  unfold analyzeHalvingCycles at hca
  obtain ⟨j, e, hj, hsome⟩ := runAnalyses_mem_inv parse now events data events 0 ca hca
  obtain ⟨hp, hfind, hca'⟩ := analyzeEvent_eq_some hsome
  subst hca'
  exact analyzeEventWith_crash_consistent parse now events data (0 + j) e hp hpos

theorem crash_fields_consistent_witness :
    (recS.postHalvingData.crashDate = none ∧ recS.postHalvingData.crashPrice = none ∧
      recS.postHalvingData.percentageFromPeak = none) ∨
    ((∃ s, recS.postHalvingData.crashDate = some s) ∧
      (∃ q, recS.postHalvingData.crashPrice = some q) ∧
      (∃ v, recS.postHalvingData.percentageFromPeak = some v)) := by
  have hpos : ∀ d ∈ dataS, 0 < d.price := by
    intro d hd
    fin_cases hd <;> norm_num
  have hlist : analyzeHalvingCycles parseS nowS eventsS dataS = [recS] := by
    with_unfolding_all rfl
  exact crash_fields_consistent parseS nowS eventsS dataS hpos recS
    (by rw [hlist]; exact List.mem_singleton.mpr rfl)

/-! ### C1 -/

/-- C1: whenever a crash is recorded, it is exactly the earliest sample —
scanning from the peak's index forward through the post-event window —
whose drawdown from the peak reaches 30%, and every sample scanned before
it stays below 30% (so the recorded crash is never overwritten by a later
or deeper sample). -/
theorem crash_first_qualifying (parse : String → ℤ) (now : ℤ) (events : List HalvingEvent)
    (data : List PriceData) (index : ℕ) (halving : HalvingEvent) (ca : CycleAnalysis)
    (h : analyzeEvent parse now events data index halving = some ca)
    (hpos : ∀ d ∈ data, 0 < d.price)
    (hdates : ∀ d ∈ data, d.date ≠ "")
    (cd : String) (hcd : ca.postHalvingData.crashDate = some cd) :
    ∃ l₁ x l₂,
      (postWindow data (parse halving.date)
          (analysisEnd parse now events index (parse halving.date))).drop
        (peakScan (postWindow data (parse halving.date)
            (analysisEnd parse now events index (parse halving.date))) 0
          (ca.preHalvingData.halvingPrice, halving.date, 0)).2.2
        = l₁ ++ x :: l₂ ∧
      cd = x.date ∧
      ca.postHalvingData.crashPrice = some x.price ∧
      30 ≤ ddq ca.postHalvingData.peakPrice x.price ∧
      ∀ y ∈ l₁, ddq ca.postHalvingData.peakPrice y.price < 30 := by
  obtain ⟨hp, hfind, hca⟩ := analyzeEvent_eq_some h
  have hhp : 0 < hp.price := hpos hp (findHalvingPrice_mem hfind)
  subst hca
  simp only [analyzeEventWith] at hcd ⊢
  set post := postWindow data (parse halving.date)
    (analysisEnd parse now events index (parse halving.date)) with hpostdef
  set pk := peakScan post 0 (hp.price, halving.date, 0) with hpkdef
  set tail := post.drop pk.2.2 with htaildef
  have hpk1 : 0 < pk.1 := by
    rw [hpkdef]
    exact lt_of_lt_of_le hhp (peakScan_fst_le post 0 hp.price halving.date 0)
  have htdates : ∀ x ∈ tail, x.date ≠ "" := by
    intro x hx
    rw [htaildef] at hx
    exact hdates x (List.mem_of_mem_filter (List.mem_of_mem_drop hx))
  rcases crashScan_char pk.1 (ne_of_gt hpk1) tail htdates 0 (by norm_num) with
    ⟨h1, _, _⟩ | ⟨l₁, x, l₂, hsplit, h1, h2, h30, hl₁⟩
  · rw [hcd] at h1
    exact absurd h1 (by simp)
  · have hcdx : cd = x.date := by
      rw [hcd] at h1
      exact Option.some.inj h1
    exact ⟨l₁, x, l₂, hsplit, hcdx, h2, h30, hl₁⟩

theorem crash_first_qualifying_witness :
    ∃ l₁ x l₂,
      (postWindow dataS (parseS "H")
          (analysisEnd parseS nowS eventsS 0 (parseS "H"))).drop
        (peakScan (postWindow dataS (parseS "H")
            (analysisEnd parseS nowS eventsS 0 (parseS "H"))) 0
          (recS.preHalvingData.halvingPrice, "H", 0)).2.2
        = l₁ ++ x :: l₂ ∧
      "P2" = x.date ∧
      recS.postHalvingData.crashPrice = some x.price ∧
      30 ≤ ddq recS.postHalvingData.peakPrice x.price ∧
      ∀ y ∈ l₁, ddq recS.postHalvingData.peakPrice y.price < 30 := by
  have hpos : ∀ d ∈ dataS, 0 < d.price := by
    intro d hd
    fin_cases hd <;> norm_num
  have hdates : ∀ d ∈ dataS, d.date ≠ "" := by
    intro d hd
    fin_cases hd <;> simp
  exact crash_first_qualifying parseS nowS eventsS dataS 0 ⟨"H", 210000, 1⟩ recS
    (by with_unfolding_all rfl) hpos hdates "P2" (by with_unfolding_all rfl)

/-! ### C2 -/

/-- C2 (amended): for positive-price and nonempty-date inputs,
`crashDate` is null iff no sample **at or after the peak's index** in the
post-event window reaches a 30% drawdown from the peak (samples before
the peak index are not scanned); and when `crashDate` is non-null,
`percentageFromPeak` equals `(crashPrice - peakPrice) / peakPrice * 100`
and is at most -30. -/
theorem crash_iff_drawdown_from_peak (parse : String → ℤ) (now : ℤ)
    (events : List HalvingEvent) (data : List PriceData) (index : ℕ)
    (halving : HalvingEvent) (ca : CycleAnalysis)
    (h : analyzeEvent parse now events data index halving = some ca)
    (hpos : ∀ d ∈ data, 0 < d.price)
    (hdates : ∀ d ∈ data, d.date ≠ "") :
    (ca.postHalvingData.crashDate = none ↔
      ∀ x ∈ (postWindow data (parse halving.date)
          (analysisEnd parse now events index (parse halving.date))).drop
        (peakScan (postWindow data (parse halving.date)
            (analysisEnd parse now events index (parse halving.date))) 0
          (ca.preHalvingData.halvingPrice, halving.date, 0)).2.2,
        ddq ca.postHalvingData.peakPrice x.price < 30) ∧
    (∀ cd, ca.postHalvingData.crashDate = some cd →
      ∃ cp, ca.postHalvingData.crashPrice = some cp ∧
        ca.postHalvingData.percentageFromPeak =
          some (.fin ((cp - ca.postHalvingData.peakPrice) /
            ca.postHalvingData.peakPrice * 100)) ∧
        (cp - ca.postHalvingData.peakPrice) / ca.postHalvingData.peakPrice * 100 ≤ -30) := by
  obtain ⟨hp, hfind, hca⟩ := analyzeEvent_eq_some h
  have hhp : 0 < hp.price := hpos hp (findHalvingPrice_mem hfind)
  subst hca
  simp only [analyzeEventWith]
  set post := postWindow data (parse halving.date)
    (analysisEnd parse now events index (parse halving.date)) with hpostdef
  set pk := peakScan post 0 (hp.price, halving.date, 0) with hpkdef
  set tail := post.drop pk.2.2 with htaildef
  have hpk1 : 0 < pk.1 := by
    rw [hpkdef]
    exact lt_of_lt_of_le hhp (peakScan_fst_le post 0 hp.price halving.date 0)
  have htdates : ∀ x ∈ tail, x.date ≠ "" := by
    intro x hx
    rw [htaildef] at hx
    exact hdates x (List.mem_of_mem_filter (List.mem_of_mem_drop hx))
  rcases crashScan_char pk.1 (ne_of_gt hpk1) tail htdates 0 (by norm_num) with
    ⟨h1, h2, hall⟩ | ⟨l₁, x, l₂, hsplit, h1, h2, h30, hl₁⟩
  · refine ⟨⟨fun _ => hall, fun _ => h1⟩, ?_⟩
    intro cd hcd
    rw [h1] at hcd
    exact absurd hcd (by simp)
  · have hxtail : x ∈ tail := by
      rw [hsplit]
      exact List.mem_append_right l₁ (List.mem_cons_self x l₂)
    have hxpos : 0 < x.price := by
      rw [htaildef] at hxtail
      exact hpos x (List.mem_of_mem_filter (List.mem_of_mem_drop hxtail))
    constructor
    · constructor
      · intro h0
        rw [h0] at h1
        exact absurd h1.symm (by simp)
      · intro hall
        exact absurd (hall x hxtail) (not_lt.mpr h30)
    · intro cd _
      refine ⟨x.price, h2, ?_, ?_⟩
      · rw [h2]
        simp only [ne_of_gt hxpos, ne_eq, not_false_iff, if_true]
        rw [pctChange_of_ne _ _ (ne_of_gt hpk1)]
      · have hneg : (x.price - pk.1) / pk.1 * 100 = -((pk.1 - x.price) / pk.1 * 100) := by
          ring
        have h30' : 30 ≤ (pk.1 - x.price) / pk.1 * 100 := h30
        rw [hneg]
        linarith

theorem crash_iff_drawdown_from_peak_witness :
    (recS.postHalvingData.crashDate = none ↔
      ∀ x ∈ (postWindow dataS (parseS "H")
          (analysisEnd parseS nowS eventsS 0 (parseS "H"))).drop
        (peakScan (postWindow dataS (parseS "H")
            (analysisEnd parseS nowS eventsS 0 (parseS "H"))) 0
          (recS.preHalvingData.halvingPrice, "H", 0)).2.2,
        ddq recS.postHalvingData.peakPrice x.price < 30) ∧
    (∀ cd, recS.postHalvingData.crashDate = some cd →
      ∃ cp, recS.postHalvingData.crashPrice = some cp ∧
        recS.postHalvingData.percentageFromPeak =
          some (.fin ((cp - recS.postHalvingData.peakPrice) /
            recS.postHalvingData.peakPrice * 100)) ∧
        (cp - recS.postHalvingData.peakPrice) / recS.postHalvingData.peakPrice * 100 ≤ -30) := by
  have hpos : ∀ d ∈ dataS, 0 < d.price := by
    intro d hd
    fin_cases hd <;> norm_num
  have hdates : ∀ d ∈ dataS, d.date ≠ "" := by
    intro d hd
    fin_cases hd <;> simp
  exact crash_iff_drawdown_from_peak parseS nowS eventsS dataS 0 ⟨"H", 210000, 1⟩ recS
    (by with_unfolding_all rfl) hpos hdates

def dataC2 : List PriceData :=
  [⟨"Q0", 100, 0⟩, ⟨"Q1", 50, 8640000000⟩, ⟨"Q2", 1000, 12960000000⟩]

def recC2 : CycleAnalysis :=
  (analyzeEvent parseS nowS eventsS dataC2 0 ⟨"H", 210000, 1⟩).getD default

def dBadC2 : PriceData := ⟨"Q1", 50, 8640000000⟩

/-- C2 (counterexample to the claim as stated): on this input the price
dips 95% below the eventual post-event peak *before* the peak occurs; the
sample lies in the analyzed post-event window and its drawdown from the
post-event peak exceeds 30%, yet `crashDate` is null, because the source
only scans from the peak's index onward. -/
theorem crash_iff_claim_counterexample :
    analyzeEvent parseS nowS eventsS dataC2 0 ⟨"H", 210000, 1⟩ = some recC2 ∧
    recC2.postHalvingData.crashDate = none ∧
    dBadC2 ∈ postWindow dataC2 (parseS "H")
      (analysisEnd parseS nowS eventsS 0 (parseS "H")) ∧
    30 ≤ ddq recC2.postHalvingData.peakPrice dBadC2.price := by
  have hwin : postWindow dataC2 (parseS "H")
      (analysisEnd parseS nowS eventsS 0 (parseS "H")) =
      [⟨"Q1", 50, 8640000000⟩, ⟨"Q2", 1000, 12960000000⟩] := by
    with_unfolding_all rfl
  have hpk : recC2.postHalvingData.peakPrice = 1000 := by
    with_unfolding_all rfl
  refine ⟨by with_unfolding_all rfl, by with_unfolding_all rfl, ?_, ?_⟩
  · rw [hwin]
    have hd : dBadC2 = ⟨"Q1", 50, 8640000000⟩ := rfl
    rw [hd]
    exact List.mem_cons_self _ _
  · rw [hpk]
    have hd : dBadC2.price = 50 := rfl
    rw [hd]
    norm_num [ddq]

/-! ### C8 -/

/-- C8: charting output is a pure filter of the immutable series — with
no cycle selected it is the full sequence; with a configured cycle
selected (under the series-ends-at-now precondition from the data model
and the configured events being at least 550 days apart) it is exactly
the subsequence of samples between the event time minus 365 days and the
cycle's post-event window upper bound; and it is always a subsequence of
the input series. -/
theorem chart_filter (parse : String → ℤ) (now : ℤ) (events : List HalvingEvent)
    (data : List PriceData) (c : ℤ) (index : ℕ) (halving : HalvingEvent)
    (hnow : ∀ d ∈ data, d.timestamp ≤ now)
    (hfind : events.find? (fun h => decide (h.cycle = c)) = some halving)
    (hnext : ∀ e, events.get? (index + 1) = some e →
      e.date ≠ "" ∧ parse halving.date + 550 * msPerDay ≤ parse e.date) :
    getFilteredData parse none events data = data ∧
    getFilteredData parse (some c) events data =
      data.filter (fun d =>
        decide (parse halving.date - 365 * msPerDay ≤ d.timestamp ∧
          d.timestamp ≤ analysisEnd parse now events index (parse halving.date))) ∧
    (getFilteredData parse (some c) events data).Sublist data := by
  refine ⟨rfl, ?_, ?_⟩
  · simp only [getFilteredData, hfind]
    apply List.filter_congr
    intro d hd
    have hdnow : d.timestamp ≤ now := hnow d hd
    apply decide_eq_decide.mpr
    have hnv : parse halving.date + 550 * msPerDay ≤ nextEventTimestamp parse now events index ∨
        nextEventTimestamp parse now events index = now := by
      unfold nextEventTimestamp
      cases hn : events.get? (index + 1) with
      | none =>
        right
        rfl
      | some e =>
        left
        show parse halving.date + 550 * msPerDay ≤
          if e.date ≠ "" then parse e.date else now
        rw [if_pos (hnext e hn).1]
        exact (hnext e hn).2
    apply and_congr_right
    intro _
    unfold analysisEnd
    rcases hnv with hnv | hnv
    · simp only [le_min_iff]
      constructor
      · intro h1
        exact ⟨⟨h1, le_trans h1 hnv⟩, hdnow⟩
      · rintro ⟨⟨h1, _⟩, _⟩
        exact h1
    · rw [hnv]
      simp only [le_min_iff]
      constructor
      · intro h1
        exact ⟨⟨h1, hdnow⟩, hdnow⟩
      · rintro ⟨⟨h1, _⟩, _⟩
        exact h1
  · simp only [getFilteredData, hfind]
    exact List.filter_sublist data

theorem chart_filter_witness :
    getFilteredData parseS none eventsS dataS = dataS ∧
    getFilteredData parseS (some 1) eventsS dataS =
      dataS.filter (fun d =>
        decide (parseS "H" - 365 * msPerDay ≤ d.timestamp ∧
          d.timestamp ≤ analysisEnd parseS nowS eventsS 0 (parseS "H"))) ∧
    (getFilteredData parseS (some 1) eventsS dataS).Sublist dataS := by
  have hnow : ∀ d ∈ dataS, d.timestamp ≤ nowS := by
    intro d hd
    fin_cases hd <;> norm_num [nowS]
  exact chart_filter parseS nowS eventsS dataS 1 0 ⟨"H", 210000, 1⟩ hnow
    (by with_unfolding_all rfl) (by intro e he; simp [eventsS] at he)
